import Mathlib

/-!
Verification of the excerpt-highlighting core of `fact_checker.py`
(`build_position_map` and `highlight_text`).

Texts are modelled as `List Char`.  Machine integers do not occur: all
indices are `Nat`.  Fallible list indexing (`pos_map[pos]` in Python) is
modelled with `List.get?`, returning `none` where Python would raise.
-/

/-- Predicate modelling Python's regex class `\s` (whitespace) on the
ASCII whitespace characters. -/
def isPySpace (c : Char) : Bool :=
  c = ' ' || c = '\t' || c = '\n' || c = '\r' || c = '\x0b' || c = '\x0c'

/-- Model of `re.match(r'\s*\(https?://[^\)]+\)', s)` (fact_checker.py
line 138): returns the length of the match when the regex matches a
prefix of `s`, and `none` otherwise.  The regex deterministically
consumes the maximal leading whitespace run, then the literal
`(https://` or `(http://`, then a nonempty run of non-`)` characters,
then `)`. -/
def urlMatch (s : List Char) : Option Nat :=
  let ws := (s.takeWhile isPySpace).length
  let r1 := s.drop ws
  let sch : Option Nat :=
    if List.isPrefixOf ("(https://".toList) r1 then some 9
    else if List.isPrefixOf ("(http://".toList) r1 then some 8
    else none
  match sch with
  | none => none
  | some k =>
    let r2 := r1.drop k
    let body := (r2.takeWhile (fun c => !(c = ')'))).length
    if 0 < body ∧ r2.get? body = some ')' then
      some (ws + k + body + 1)
    else none

theorem urlMatch_pos {s : List Char} {n : Nat} (h : urlMatch s = some n) :
    0 < n := by
  unfold urlMatch at h
  simp only at h
  split at h
  · exact absurd h (by simp)
  · split at h
    · simp only [Option.some.injEq] at h
      omega
    · exact absurd h (by simp)

/-- Model of the body of `build_position_map` (fact_checker.py lines
131-147): scans the suffix `s` of the original text, whose first
character sits at absolute index `i`; characters belonging to a
`\s*\(https?://...\)` match are skipped, every other character is
appended to the logical text together with its absolute index. -/
def build_position_map_aux : List Char → Nat → List Char × List Nat
  | [], _ => ([], [])
  | c :: rest, i =>
    match h : urlMatch (c :: rest) with
    | some n => build_position_map_aux ((c :: rest).drop n) (i + n)
    | none =>
      let p := build_position_map_aux rest (i + 1)
      (c :: p.1, i :: p.2)
termination_by s _ => s.length
decreasing_by
  · have hn := urlMatch_pos h
    simp [List.length_drop]
    omega
  · simp

/-- Fuel-indexed version of `build_position_map_aux`, structurally
recursive on the fuel so that concrete inputs evaluate inside the
kernel; it agrees with `build_position_map_aux` whenever the fuel is at
least the length of the remaining text. -/
def build_position_map_fuel : Nat → List Char → Nat → List Char × List Nat
  | 0, _, _ => ([], [])
  | _ + 1, [], _ => ([], [])
  | fuel + 1, c :: rest, i =>
    match urlMatch (c :: rest) with
    | some n => build_position_map_fuel fuel ((c :: rest).drop n) (i + n)
    | none =>
      let p := build_position_map_fuel fuel rest (i + 1)
      (c :: p.1, i :: p.2)

theorem build_position_map_fuel_eq_aux :
    ∀ (s : List Char) (i : Nat) (fuel : Nat), s.length ≤ fuel →
      build_position_map_fuel fuel s i = build_position_map_aux s i := by
  intro s i
  induction s, i using build_position_map_aux.induct with
  | case1 i =>
    intro fuel h
    cases fuel <;> simp [build_position_map_fuel, build_position_map_aux]
  | case2 c rest i n hu ih =>
    intro fuel h
    cases fuel with
    | zero => simp at h
    | succ f =>
      rw [build_position_map_fuel, hu, build_position_map_aux, hu]
      have hn := urlMatch_pos hu
      refine ih f ?_
      simp only [List.length_drop, List.length_cons]
      simp only [List.length_cons] at h
      omega
  | case3 c rest i hu ih =>
    intro fuel h
    cases fuel with
    | zero => simp at h
    | succ f =>
      rw [build_position_map_fuel, hu, build_position_map_aux, hu]
      simp only [List.length_cons] at h
      rw [ih f (by omega)]

/-- Model of `build_position_map(text)` (fact_checker.py lines 131-147):
returns the logical (URL-stripped) text and the list mapping logical
positions back to positions in `text`.  Defined through the fuel-indexed
scanner (with ample fuel) so that it evaluates by kernel reduction; it
is equal to the direct model `build_position_map_aux text 0`. -/
def build_position_map (text : List Char) : List Char × List Nat :=
  build_position_map_fuel text.length text 0

theorem build_position_map_eq_aux (text : List Char) :
    build_position_map text = build_position_map_aux text 0 :=
  build_position_map_fuel_eq_aux text 0 text.length (Nat.le_refl _)

/-- Every logical character is paired with an in-bounds original index
pointing at an equal character. -/
theorem build_position_map_aux_forall₂ (s : List Char) (i : Nat) :
    List.Forall₂ (fun c m => i ≤ m ∧ s.get? (m - i) = some c)
      (build_position_map_aux s i).1 (build_position_map_aux s i).2 := by
  induction s, i using build_position_map_aux.induct with
  | case1 i => simp [build_position_map_aux]
  | case2 c rest i n h ih =>
    rw [build_position_map_aux, h]
    refine ih.imp ?_
    intro a b hb
    obtain ⟨h1, h2⟩ := hb
    have hn := urlMatch_pos h
    refine ⟨by omega, ?_⟩
    rw [List.get?_drop] at h2
    have : n + (b - (i + n)) = b - i := by omega
    rwa [this] at h2
  | case3 c rest i h ih =>
    rw [build_position_map_aux, h]
    simp only
    refine List.Forall₂.cons ⟨Nat.le_refl i, by simp⟩ ?_
    refine ih.imp ?_
    intro a b hb
    obtain ⟨h1, h2⟩ := hb
    refine ⟨by omega, ?_⟩
    have : b - i = (b - (i + 1)) + 1 := by omega
    rw [this]
    simpa using h2

/-- Every recorded original index lies in `[i, i + s.length)`. -/
theorem build_position_map_aux_mem_bounds (s : List Char) (i : Nat) :
    ∀ m ∈ (build_position_map_aux s i).2, i ≤ m ∧ m < i + s.length := by
  induction s, i using build_position_map_aux.induct with
  | case1 i => simp [build_position_map_aux]
  | case2 c rest i n h ih =>
    rw [build_position_map_aux, h]
    intro m hm
    have := ih m hm
    have hn := urlMatch_pos h
    have hd : ((c :: rest).drop n).length = (c :: rest).length - n := by
      simp
    omega
  | case3 c rest i h ih =>
    rw [build_position_map_aux, h]
    intro m hm
    simp only [List.mem_cons] at hm
    rcases hm with rfl | hm
    · simp
    · have := ih m hm
      simp only [List.length_cons]
      omega

/-- The recorded original indices are strictly increasing. -/
theorem build_position_map_aux_pairwise (s : List Char) (i : Nat) :
    List.Pairwise (· < ·) (build_position_map_aux s i).2 := by
  induction s, i using build_position_map_aux.induct with
  | case1 i => simp [build_position_map_aux]
  | case2 c rest i n h ih =>
    rw [build_position_map_aux, h]
    exact ih
  | case3 c rest i h ih =>
    rw [build_position_map_aux, h]
    refine List.Pairwise.cons ?_ ih
    intro m hm
    have := build_position_map_aux_mem_bounds rest (i + 1) m hm
    omega

theorem build_position_map_aux_length (s : List Char) (i : Nat) :
    (build_position_map_aux s i).1.length
      = (build_position_map_aux s i).2.length :=
  (build_position_map_aux_forall₂ s i).length_eq

theorem build_position_map_forall₂ (text : List Char) :
    List.Forall₂ (fun c m => text.get? m = some c)
      (build_position_map text).1 (build_position_map text).2 := by
  rw [build_position_map_eq_aux]
  refine (build_position_map_aux_forall₂ text 0).imp ?_
  intro a b hb
  simpa using hb.2

theorem build_position_map_mem_bounds (text : List Char) :
    ∀ m ∈ (build_position_map text).2, m < text.length := by
  rw [build_position_map_eq_aux]
  intro m hm
  have := build_position_map_aux_mem_bounds text 0 m hm
  omega

theorem build_position_map_pairwise (text : List Char) :
    List.Pairwise (· < ·) (build_position_map text).2 := by
  rw [build_position_map_eq_aux]
  exact build_position_map_aux_pairwise text 0

theorem build_position_map_length (text : List Char) :
    (build_position_map text).1.length = (build_position_map text).2.length :=
  (build_position_map_forall₂ text).length_eq

/-- Model of Python's `str.strip()` with no argument: removes leading
and trailing whitespace (fact_checker.py line 191). -/
def pyStrip (s : List Char) : List Char :=
  ((s.dropWhile isPySpace).reverse.dropWhile isPySpace).reverse

/-- Helper for `strFind`: tests offsets `k, k+1, ...` in order and
returns the first absolute offset at which `needle` is a prefix of the
remaining haystack. -/
def strFindAux : List Char → List Char → Nat → Option Nat
  | hay, needle, k =>
    if List.isPrefixOf needle hay then some k
    else
      match hay with
      | [] => none
      | _ :: rest => strFindAux rest needle (k + 1)

/-- Model of Python's `str.find`: index of the first occurrence of
`needle` in `hay` (`none` models the `-1` result).  An empty needle is
found at offset `0`, as in Python. -/
def strFind (hay needle : List Char) : Option Nat :=
  strFindAux hay needle 0

theorem strFindAux_some {hay needle : List Char} {k p : Nat}
    (h : strFindAux hay needle k = some p) :
    k ≤ p ∧ List.isPrefixOf needle (hay.drop (p - k)) = true
      ∧ ∀ q, k ≤ q → q < p →
        List.isPrefixOf needle (hay.drop (q - k)) = false := by
  induction hay generalizing k with
  | nil =>
    rw [strFindAux] at h
    split at h
    · rename_i hpre
      simp only [Option.some.injEq] at h
      subst h
      exact ⟨Nat.le_refl k, by simpa using hpre, fun q h1 h2 => by omega⟩
    · exact absurd h (by simp)
  | cons c rest ih =>
    rw [strFindAux] at h
    split at h
    · rename_i hpre
      simp only [Option.some.injEq] at h
      subst h
      exact ⟨Nat.le_refl k, by simpa using hpre, fun q h1 h2 => by omega⟩
    · rename_i hpre
      have := ih h
      obtain ⟨h1, h2, h3⟩ := this
      refine ⟨by omega, ?_, ?_⟩
      · have : (c :: rest).drop (p - k) = rest.drop (p - (k + 1)) := by
          have hk : p - k = (p - (k + 1)) + 1 := by omega
          rw [hk]
          simp
        rw [this]
        exact h2
      · intro q hq1 hq2
        rcases Nat.eq_or_lt_of_le hq1 with rfl | hlt
        · simp only [Nat.sub_self, List.drop_zero]
          exact (Bool.not_eq_true _).mp hpre
        · have : (c :: rest).drop (q - k) = rest.drop (q - (k + 1)) := by
            have hk : q - k = (q - (k + 1)) + 1 := by omega
            rw [hk]
            simp
          rw [this]
          exact h3 q (by omega) hq2

theorem strFindAux_none {hay needle : List Char} {k : Nat}
    (h : strFindAux hay needle k = none) :
    ∀ d, List.isPrefixOf needle (hay.drop d) = false := by
  induction hay generalizing k with
  | nil =>
    rw [strFindAux] at h
    split at h
    · exact absurd h (by simp)
    · rename_i hpre
      intro d
      simp only [List.drop_nil]
      exact (Bool.not_eq_true _).mp (by simpa using hpre)
  | cons c rest ih =>
    rw [strFindAux] at h
    split at h
    · exact absurd h (by simp)
    · rename_i hpre
      intro d
      match d with
      | 0 =>
        simp only [List.drop_zero]
        exact (Bool.not_eq_true _).mp hpre
      | d + 1 =>
        simp only [List.drop_succ_cons]
        exact ih h d

theorem isPrefixOf_length {l₁ l₂ : List Char}
    (h : List.isPrefixOf l₁ l₂ = true) : l₁.length ≤ l₂.length := by
  induction l₁ generalizing l₂ with
  | nil => simp
  | cons a t ih =>
    match l₂ with
    | [] => simp [List.isPrefixOf] at h
    | b :: t₂ =>
      simp only [List.isPrefixOf, Bool.and_eq_true] at h
      simpa using ih h.2

/-- When `strFind` succeeds the needle actually occurs there. -/
theorem strFind_some {hay needle : List Char} {p : Nat}
    (h : strFind hay needle = some p) :
    List.isPrefixOf needle (hay.drop p) = true
      ∧ ∀ q < p, List.isPrefixOf needle (hay.drop q) = false := by
  have := strFindAux_some h
  obtain ⟨-, h2, h3⟩ := this
  simp only [Nat.sub_zero] at h2 h3
  exact ⟨h2, fun q hq => h3 q (Nat.zero_le q) hq⟩

/-- A successful `strFind` yields an occurrence that fits inside the
haystack: `p + needle.length ≤ hay.length`. -/
theorem strFind_some_bound {hay needle : List Char} {p : Nat}
    (h : strFind hay needle = some p) :
    p + needle.length ≤ hay.length := by
  obtain ⟨h2, h3⟩ := strFind_some h
  have hlen := isPrefixOf_length h2
  simp only [List.length_drop] at hlen
  rcases le_or_lt p hay.length with hple | hgt
  · omega
  · exfalso
    have hd : hay.drop p = [] := List.drop_eq_nil_of_le (by omega)
    rw [hd] at h2
    have hne : needle = [] := by
      cases needle with
      | nil => rfl
      | cons a t => simp [List.isPrefixOf] at h2
    subst hne
    have := h3 0 (by omega)
    simp [List.isPrefixOf] at this

/-- An issue object as produced by the model response and consumed by
`highlight_text` (fact_checker.py lines 190-198): the excerpt to look
up, the issue kind (`type` key, one of `misleading`, `questionable`,
`incomplete`), the explanation (`issue` key) and the source list. -/
structure Issue where
  excerpt : List Char
  type : String
  issue : String
  sources : List String
deriving DecidableEq, Repr

/-- A located highlight range, mirroring the dict appended at
fact_checker.py lines 221-228.  `stop` models the `end` key. -/
structure HRange where
  start : Nat
  stop : Nat
  issue_index : Nat
  issue_type : String
  explanation : String
  sources : List String
deriving DecidableEq, Repr

/-- A segment of the partition, mirroring the dict appended at
fact_checker.py lines 250-255. -/
structure Segment where
  start : Nat
  stop : Nat
  text : List Char
  issues : List HRange
deriving DecidableEq, Repr

/-- Model of `locate`-style excerpt lookup for one issue
(fact_checker.py lines 191-218): strip the excerpt, try an exact
substring match in the original text, otherwise search the URL-stripped
(logical) forms and translate back through the position map.  Returns
the located `[start, end)` range, or `none` when the issue contributes
no range.  List indexing out of bounds (which would raise in Python) is
modelled by the `none` fallthrough of `List.get?`. -/
def locate (original_text rawExcerpt : List Char) : Option (Nat × Nat) :=
  let excerpt := pyStrip rawExcerpt
  if excerpt = [] then none
  else
    match strFind original_text excerpt with
    | some pos => some (pos, pos + excerpt.length)
    | none =>
      let original_stripped := (build_position_map original_text).1
      let pos_map := (build_position_map original_text).2
      let excerpt_stripped := (build_position_map excerpt).1
      match strFind original_stripped excerpt_stripped with
      | none => none
      | some pos =>
        if 0 < excerpt_stripped.length then
          match pos_map.get? pos with
          | none => none
          | some start_pos =>
            let end_pos_stripped :=
              min (pos + excerpt_stripped.length) pos_map.length
            if 0 < end_pos_stripped ∧ end_pos_stripped ≤ pos_map.length then
              match pos_map.get? (end_pos_stripped - 1) with
              | none => none
              | some q => some (start_pos, q + 1)
            else none
        else none

/-- Visibility filter of `highlight_text` (fact_checker.py lines
156-168): keeps the issues whose kind is enabled, pairing each kept
issue with its index in the original list (`_original_index`).  The
counter `idx` models `enumerate`. -/
def filterIssuesAux (issues : List Issue) (idx : Nat)
    (show_misleading show_incomplete show_questionable : Bool) :
    List (Nat × Issue) :=
  match issues with
  | [] => []
  | issue :: rest =>
    if (issue.type = "misleading" ∧ show_misleading = false)
        ∨ (issue.type = "incomplete" ∧ show_incomplete = false)
        ∨ (issue.type = "questionable" ∧ show_questionable = false) then
      filterIssuesAux rest (idx + 1) show_misleading show_incomplete
        show_questionable
    else
      (idx, issue) :: filterIssuesAux rest (idx + 1) show_misleading
        show_incomplete show_questionable

/-- Model of the range-collection loop of `highlight_text`
(fact_checker.py lines 188-228): each filtered issue whose excerpt is
located contributes one highlight range carrying its original index,
kind, explanation and sources. -/
def buildRanges (original_text : List Char) (filtered : List (Nat × Issue)) :
    List HRange :=
  filtered.filterMap fun p =>
    match locate original_text p.2.excerpt with
    | some r => some ⟨r.1, r.2, p.1, p.2.type, p.2.issue, p.2.sources⟩
    | none => none

/-- Model of `highlight_ranges.sort(key=lambda x: x['start'])`
(fact_checker.py line 230); Python's `sort` is a stable sort on the
`start` key, modelled by the stable `insertionSort` on `start ≤ start`
(`orderedInsert` places an element before the first strictly later
element, preserving the original order of equal keys). -/
def sortRanges (ranges : List HRange) : List HRange :=
  ranges.insertionSort fun a b => a.start ≤ b.start

/-- Model of the `position_issues` dict lookup (fact_checker.py lines
233-238, 248): the ranges covering position `pos`, in the order of the
sorted range list. -/
def coveringAt (ranges : List HRange) (pos : Nat) : List HRange :=
  ranges.filter fun hr => decide (hr.start ≤ pos ∧ pos < hr.stop)

/-- Model of `sorted(set([0, len(original_text)] + starts + ends))`
(fact_checker.py lines 240-242). -/
def cutPoints (original_text : List Char) (ranges : List HRange) :
    List Nat :=
  ((0 :: original_text.length ::
      (ranges.map HRange.start ++ ranges.map HRange.stop)).dedup).insertionSort
    (· ≤ ·)

/-- Model of Python's slice `l[a:b]` for natural indices. -/
def pySlice (l : List Char) (a b : Nat) : List Char :=
  (l.drop a).take (b - a)

/-- Model of the segment-construction loop of `highlight_text`
(fact_checker.py lines 230-255): sort the ranges by start, cut the text
at every range boundary and attach to each segment the ranges covering
its start position. -/
def segmentsOf (original_text : List Char) (ranges : List HRange) :
    List Segment :=
  let sorted := sortRanges ranges
  let positions := cutPoints original_text sorted
  (positions.zip positions.tail).map fun p =>
    ⟨p.1, p.2, pySlice original_text p.1 p.2, coveringAt sorted p.1⟩

/-- The `colors` dict (fact_checker.py lines 175-179). -/
def colors (t : String) : Option String :=
  if t = "misleading" then some "#ffcccc"
  else if t = "questionable" then some "#fff4cc"
  else if t = "incomplete" then some "#cce5ff"
  else none

/-- The `border_colors` dict (fact_checker.py lines 181-185). -/
def border_colors (t : String) : Option String :=
  if t = "misleading" then some "#ff0000"
  else if t = "questionable" then some "#ffa500"
  else if t = "incomplete" then some "#0066cc"
  else none

/-- Rendering metadata of one highlighted segment: background color,
border style, badge text and badge type, as computed at fact_checker.py
lines 264-297. -/
structure MarkData where
  bg : String
  border : String
  badge : String
  badgeType : String
deriving DecidableEq, Repr

/-- Model of the per-segment rendering computation (fact_checker.py
lines 260-297): `none` for a plain segment; otherwise the primary issue
is the first of the covering list, its kind selects the background
color (with default `#fff4cc`), the border is taken from the first of
the non-primary issues when the list has more than one entry, and the
badge is the primary issue's 1-based index for a single issue and the
covering count otherwise. -/
def renderSegment (seg : Segment) : Option MarkData :=
  match seg.issues with
  | [] => none
  | primary :: restIssues =>
    let issues_data := primary :: restIssues
    let bg_color := (colors primary.issue_type).getD "#fff4cc"
    let border_style :=
      if 1 < issues_data.length then
        match restIssues.map
            (fun iss => (border_colors iss.issue_type).getD "#333") with
        | [] => "2px solid transparent"
        | b :: _ => "2px solid " ++ b
      else "2px solid transparent"
    let badge_text :=
      if issues_data.length = 1 then toString (primary.issue_index + 1)
      else toString issues_data.length
    let badge_type := if issues_data.length = 1 then "single" else "multiple"
    some ⟨bg_color, border_style, badge_text, badge_type⟩

/-- Model of the HTML emitted for one segment (fact_checker.py lines
260-306): a plain segment contributes its text verbatim, a highlighted
segment contributes a `mark` element carrying the rendering metadata
around its text.  The tooltip attribute is not modelled. -/
def segmentHtml (seg : Segment) : List Char :=
  match renderSegment seg with
  | none => seg.text
  | some md =>
    ("<mark class=\"fact-issue\" data-badge-text=\"".toList
        ++ md.badge.toList
        ++ "\" data-badge-type=\"".toList ++ md.badgeType.toList
        ++ "\" style=\"background-color: ".toList ++ md.bg.toList
        ++ "; border: ".toList ++ md.border.toList ++ "\">".toList)
      ++ seg.text ++ "</mark>".toList

/-- The segments computed by `highlight_text` for a given issue list and
visibility flags (fact_checker.py lines 150-255). -/
def highlightSegments (original_text : List Char) (issues : List Issue)
    (show_misleading show_incomplete show_questionable : Bool) :
    List Segment :=
  segmentsOf original_text
    (buildRanges original_text
      (filterIssuesAux issues 0 show_misleading show_incomplete
        show_questionable))

/-- Model of `highlight_text` (fact_checker.py lines 150-308): returns
the original text unchanged when no issue survives, otherwise the
concatenated per-segment HTML. -/
def highlight_text (original_text : List Char) (issues : List Issue)
    (show_misleading show_incomplete show_questionable : Bool) :
    List Char :=
  if issues = [] then original_text
  else if filterIssuesAux issues 0 show_misleading show_incomplete
      show_questionable = [] then original_text
  else
    ((highlightSegments original_text issues show_misleading
        show_incomplete show_questionable).map segmentHtml).flatten

theorem locate_of_strip_empty {original_text rawExcerpt : List Char}
    (h : pyStrip rawExcerpt = []) : locate original_text rawExcerpt = none := by
  simp [locate, h]

theorem locate_exact {original_text rawExcerpt : List Char} {pos : Nat}
    (hne : pyStrip rawExcerpt ≠ [])
    (h : strFind original_text (pyStrip rawExcerpt) = some pos) :
    locate original_text rawExcerpt
      = some (pos, pos + (pyStrip rawExcerpt).length) := by
  simp [locate, hne, h]

theorem locate_fallback_none {original_text rawExcerpt : List Char}
    (hne : pyStrip rawExcerpt ≠ [])
    (hex : strFind original_text (pyStrip rawExcerpt) = none)
    (hp : strFind (build_position_map original_text).1
        (build_position_map (pyStrip rawExcerpt)).1 = none) :
    locate original_text rawExcerpt = none := by
  simp [locate, hne, hex, hp]

theorem locate_fallback {original_text rawExcerpt : List Char} {pos : Nat}
    (hne : pyStrip rawExcerpt ≠ [])
    (hex : strFind original_text (pyStrip rawExcerpt) = none)
    (hp : strFind (build_position_map original_text).1
        (build_position_map (pyStrip rawExcerpt)).1 = some pos)
    (hL : (build_position_map (pyStrip rawExcerpt)).1 ≠ []) :
    locate original_text rawExcerpt
      = ((build_position_map original_text).2.get? pos).bind fun s =>
          ((build_position_map original_text).2.get?
            (pos + (build_position_map (pyStrip rawExcerpt)).1.length - 1)).map
            fun q => (s, q + 1) := by
  have hLpos : 0 < (build_position_map (pyStrip rawExcerpt)).1.length :=
    List.length_pos.mpr hL
  have hb := strFind_some_bound hp
  have hlen : (build_position_map original_text).1.length
      = (build_position_map original_text).2.length :=
    build_position_map_length original_text
  have h1 : pos < (build_position_map original_text).2.length := by omega
  have h2 : pos + (build_position_map (pyStrip rawExcerpt)).1.length - 1
      < (build_position_map original_text).2.length := by omega
  have hmin : min (pos + (build_position_map (pyStrip rawExcerpt)).1.length)
      (build_position_map original_text).2.length
      = pos + (build_position_map (pyStrip rawExcerpt)).1.length := by omega
  simp only [locate, hex, hp, if_neg hne]
  rw [List.get?_eq_get h1, List.get?_eq_get h2]
  simp only [Option.bind_some, Option.map_some]
  rw [if_pos hLpos, hmin]
  have hcond : 0 < pos + (build_position_map (pyStrip rawExcerpt)).1.length
      ∧ pos + (build_position_map (pyStrip rawExcerpt)).1.length
        ≤ (build_position_map original_text).2.length := by omega
  rw [if_pos hcond, List.get?_eq_get h2]
  simp

theorem pairwise_lt_get?_le {l : List Nat}
    (hp : List.Pairwise (· < ·) l) {i j a b : Nat} (hij : i ≤ j)
    (ha : l.get? i = some a) (hb : l.get? j = some b) : a ≤ b := by
  rcases Nat.eq_or_lt_of_le hij with rfl | hlt
  · have : some a = some b := ha.symm.trans hb
    simp at this
    omega
  · obtain ⟨hi, hia⟩ := List.get?_eq_some.mp ha
    obtain ⟨hj, hjb⟩ := List.get?_eq_some.mp hb
    have := List.pairwise_iff_get.mp hp ⟨i, hi⟩ ⟨j, hj⟩ hlt
    rw [hia, hjb] at this
    omega

/-- Every located range is nonempty and lies inside the original
text. -/
theorem locate_bounds {original_text rawExcerpt : List Char} {s e : Nat}
    (h : locate original_text rawExcerpt = some (s, e)) :
    s < e ∧ e ≤ original_text.length := by
  by_cases hne : pyStrip rawExcerpt = []
  · rw [locate_of_strip_empty hne] at h
    exact absurd h (by simp)
  · rcases hfind : strFind original_text (pyStrip rawExcerpt) with _ | pos
    · rcases hp : strFind (build_position_map original_text).1
          (build_position_map (pyStrip rawExcerpt)).1 with _ | pos
      · rw [locate_fallback_none hne hfind hp] at h
        exact absurd h (by simp)
      · by_cases hL : (build_position_map (pyStrip rawExcerpt)).1 = []
        · have hnone : locate original_text rawExcerpt = none := by
            simp only [locate, hfind, if_neg hne, hp]
            rw [hL]
            simp
          rw [hnone] at h
          exact absurd h (by simp)
        · rw [locate_fallback hne hfind hp hL] at h
          rcases hsq : (build_position_map original_text).2.get? pos
            with _ | s'
          · rw [hsq] at h
            simp at h
          · rcases hq2 : (build_position_map original_text).2.get?
                (pos + (build_position_map (pyStrip rawExcerpt)).1.length - 1)
              with _ | q
            · rw [hsq, hq2] at h
              simp at h
            · rw [hsq, hq2] at h
              simp at h
              obtain ⟨rfl, rfl⟩ := h
              constructor
              · have hle := pairwise_lt_get?_le
                  (build_position_map_pairwise original_text)
                  (Nat.le_sub_one_of_lt (by
                    have := List.length_pos.mpr hL
                    omega)) hsq hq2
                omega
              · have hqmem := List.get?_mem hq2
                have := build_position_map_mem_bounds original_text q hqmem
                omega
    · rw [locate_exact hne hfind] at h
      simp only [Option.some.injEq, Prod.mk.injEq] at h
      obtain ⟨rfl, rfl⟩ := h
      have hb := strFind_some_bound hfind
      have hl : 0 < (pyStrip rawExcerpt).length := List.length_pos.mpr hne
      omega

/-- C2: for every input text, `build_position_map` returns `(logical,
map)` with `len(logical) == len(map)`, `map` strictly increasing, and
`text[map[i]] == logical[i]` for every valid index `i` (the third part
is stated as a `Forall₂` over the two lists, which also forces the
length equality). -/
theorem C2_position_map_guarantees (text : List Char) :
    (build_position_map text).1.length = (build_position_map text).2.length
    ∧ List.Pairwise (· < ·) (build_position_map text).2
    ∧ List.Forall₂ (fun c m => text.get? m = some c)
        (build_position_map text).1 (build_position_map text).2 := by
  exact ⟨build_position_map_length text, build_position_map_pairwise text,
    build_position_map_forall₂ text⟩

/-- C3: when the whitespace-trimmed excerpt is a nonempty literal
substring of the original text (witnessed by `strFind` succeeding at
`p`), `locate` returns `[p, p + len(trimmed))` where `p` is the first
occurrence — the needle occurs at `p` and at no earlier offset — and
the fallback strategy is never attempted (the result is the
exact-match range). -/
theorem C3_exact_match_first_occurrence (original_text rawExcerpt : List Char)
    (p : Nat) (hne : pyStrip rawExcerpt ≠ [])
    (hp : strFind original_text (pyStrip rawExcerpt) = some p) :
    locate original_text rawExcerpt
      = some (p, p + (pyStrip rawExcerpt).length)
    ∧ List.isPrefixOf (pyStrip rawExcerpt) (original_text.drop p) = true
    ∧ ∀ q < p,
        List.isPrefixOf (pyStrip rawExcerpt) (original_text.drop q) = false :=
  ⟨locate_exact hne hp, (strFind_some hp).1, (strFind_some hp).2⟩

/-- Witness for C3 at a concrete input: in `"xabcabc"` the trimmed
excerpt `"abc"` of `" abc "` occurs at offsets 1 and 4; `locate`
returns the first occurrence `[1, 4)`. -/
theorem C3_exact_match_first_occurrence_witness :
    pyStrip " abc ".toList ≠ []
    ∧ strFind "xabcabc".toList (pyStrip " abc ".toList) = some 1
    ∧ List.isPrefixOf (pyStrip " abc ".toList) ("xabcabc".toList.drop 4)
        = true
    ∧ locate "xabcabc".toList " abc ".toList
        = some (1, 1 + (pyStrip " abc ".toList).length) :=
  ⟨by decide, by decide, by decide,
    (C3_exact_match_first_occurrence "xabcabc".toList " abc ".toList 1
      (by decide) (by decide)).1⟩

/-- C4: when the trimmed excerpt is nonempty but not a substring of the
original text, `locate` searches the URL-stripped logical forms: if
that search fails `locate` fails; if it succeeds at `p` and the logical
excerpt has length `L ≥ 1`, the result is `(map[p], map[p + L - 1] + 1)`
— stated as an `Option.bind` equation over `map.get?`, so an
out-of-bounds index would make `locate` fail and contribute no
range. -/
theorem C4_fallback_translation (original_text rawExcerpt : List Char)
    (hne : pyStrip rawExcerpt ≠ [])
    (hex : strFind original_text (pyStrip rawExcerpt) = none) :
    (strFind (build_position_map original_text).1
        (build_position_map (pyStrip rawExcerpt)).1 = none →
      locate original_text rawExcerpt = none)
    ∧ ∀ p, strFind (build_position_map original_text).1
          (build_position_map (pyStrip rawExcerpt)).1 = some p →
        (build_position_map (pyStrip rawExcerpt)).1 ≠ [] →
        locate original_text rawExcerpt
          = ((build_position_map original_text).2.get? p).bind fun s =>
              ((build_position_map original_text).2.get?
                (p + (build_position_map
                  (pyStrip rawExcerpt)).1.length - 1)).map
                fun q => (s, q + 1) := by
  constructor
  · intro hp
    exact locate_fallback_none hne hex hp
  · intro p hp hL
    exact locate_fallback hne hex hp hL

/-- Witness for C4 at a concrete input: `"ab c"` is not a substring of
`"ab (http://x) c"` but its logical form is found at logical offset 0,
and `locate` translates the occurrence through the position map. -/
theorem C4_fallback_translation_witness :
    pyStrip "ab c".toList ≠ []
    ∧ strFind "ab (http://x) c".toList (pyStrip "ab c".toList) = none
    ∧ strFind (build_position_map "ab (http://x) c".toList).1
        (build_position_map (pyStrip "ab c".toList)).1 = some 0
    ∧ locate "ab (http://x) c".toList "ab c".toList
        = ((build_position_map "ab (http://x) c".toList).2.get? 0).bind
            fun s =>
              ((build_position_map "ab (http://x) c".toList).2.get?
                (0 + (build_position_map
                  (pyStrip "ab c".toList)).1.length - 1)).map
                fun q => (s, q + 1) :=
  ⟨by decide, by decide, by decide,
    (C4_fallback_translation "ab (http://x) c".toList "ab c".toList
      (by decide) (by decide)).2 0 (by decide) (by decide)⟩

/-- Canonical original text of C5. -/
def parisText : List Char :=
  "Paris is the capital (https://example.com/1).".toList

/-- Canonical excerpt of C5. -/
def parisExcerpt : List Char :=
  "Paris is the capital.".toList

/-- C5: for the canonical annotation scenario, the exact match fails,
`locate` succeeds via the fallback path and the returned range starts
at 0 and extends through the closing period of the original text, i.e.
to `parisText.length` (45), covering the elided annotation run. -/
theorem C5_annotation_aware_fallback :
    strFind parisText (pyStrip parisExcerpt) = none
    ∧ locate parisText parisExcerpt = some (0, parisText.length)
    ∧ parisText.length = 45 := by
  refine ⟨by decide, by decide, by decide⟩

/-- C10: whenever the nonempty logical form of an excerpt is found at
offset `p` in the logical text, `p + L ≤ len(map)` holds (so the clamp
`min(p + L, len(map))` is the identity) and both `map[p]` and
`map[p + L - 1]` are valid accesses — the fallback path of
`highlight_text` can never raise an index error. -/
theorem C10_fallback_indices_in_bounds (original_text rawExcerpt : List Char)
    (p : Nat) (hne : (build_position_map (pyStrip rawExcerpt)).1 ≠ [])
    (hp : strFind (build_position_map original_text).1
        (build_position_map (pyStrip rawExcerpt)).1 = some p) :
    p + (build_position_map (pyStrip rawExcerpt)).1.length
        ≤ (build_position_map original_text).2.length
    ∧ min (p + (build_position_map (pyStrip rawExcerpt)).1.length)
          (build_position_map original_text).2.length
        = p + (build_position_map (pyStrip rawExcerpt)).1.length
    ∧ (build_position_map original_text).2.get? p ≠ none
    ∧ (build_position_map original_text).2.get?
        (p + (build_position_map (pyStrip rawExcerpt)).1.length - 1)
        ≠ none := by
  have hb := strFind_some_bound hp
  have hlen : (build_position_map original_text).1.length
      = (build_position_map original_text).2.length :=
    build_position_map_length original_text
  have hLpos : 0 < (build_position_map (pyStrip rawExcerpt)).1.length :=
    List.length_pos.mpr hne
  refine ⟨by omega, by omega, ?_, ?_⟩
  · intro hnone
    rw [List.get?_eq_none] at hnone
    omega
  · intro hnone
    rw [List.get?_eq_none] at hnone
    omega

/-- Witness for C10 at the canonical annotation scenario. -/
theorem C10_fallback_indices_in_bounds_witness :
    (build_position_map (pyStrip parisExcerpt)).1 ≠ []
    ∧ strFind (build_position_map parisText).1
        (build_position_map (pyStrip parisExcerpt)).1 = some 0
    ∧ (build_position_map parisText).2.get? 0 ≠ none
    ∧ (build_position_map parisText).2.get?
        (0 + (build_position_map (pyStrip parisExcerpt)).1.length - 1)
        ≠ none :=
  ⟨by decide, by decide,
    (C10_fallback_indices_in_bounds parisText parisExcerpt 0
      (by decide) (by decide)).2.2.1,
    (C10_fallback_indices_in_bounds parisText parisExcerpt 0
      (by decide) (by decide)).2.2.2⟩

instance : IsTotal HRange fun a b => a.start ≤ b.start :=
  ⟨fun a b => Nat.le_total a.start b.start⟩

instance : IsTrans HRange fun a b => a.start ≤ b.start :=
  ⟨fun _ _ _ h1 h2 => Nat.le_trans h1 h2⟩

theorem sortRanges_perm (ranges : List HRange) :
    List.Perm (sortRanges ranges) ranges :=
  List.perm_insertionSort _ _

theorem sortRanges_sorted (ranges : List HRange) :
    List.Pairwise (fun a b => a.start ≤ b.start) (sortRanges ranges) :=
  List.sorted_insertionSort _ _

theorem cutPoints_pairwise (o : List Char) (rs : List HRange) :
    List.Pairwise (· < ·) (cutPoints o rs) := by
  have hs : List.Sorted (· ≤ ·) (cutPoints o rs) :=
    List.sorted_insertionSort _ _
  have hperm : List.Perm (cutPoints o rs)
      ((0 :: o.length ::
          (rs.map HRange.start ++ rs.map HRange.stop)).dedup) :=
    List.perm_insertionSort _ _
  have hnd : (cutPoints o rs).Nodup := hperm.nodup_iff.mpr (List.nodup_dedup _)
  exact (hs.and hnd).imp fun h => lt_of_le_of_ne h.1 h.2

theorem cutPoints_mem {o : List Char} {rs : List HRange} {x : Nat} :
    x ∈ cutPoints o rs
      ↔ x = 0 ∨ x = o.length
        ∨ x ∈ rs.map HRange.start ++ rs.map HRange.stop := by
  unfold cutPoints
  rw [(List.perm_insertionSort _ _).mem_iff, List.mem_dedup]
  simp [List.mem_cons]

theorem cutPoints_ne_nil (o : List Char) (rs : List HRange) :
    cutPoints o rs ≠ [] := by
  intro h
  have h0 : (0 : Nat) ∈ cutPoints o rs := cutPoints_mem.mpr (Or.inl rfl)
  rw [h] at h0
  simp at h0

theorem cutPoints_head_eq_zero {o : List Char} {rs : List HRange}
    {a : Nat} {t : List Nat} (h : cutPoints o rs = a :: t) : a = 0 := by
  have h0 : (0 : Nat) ∈ a :: t := h ▸ cutPoints_mem.mpr (Or.inl rfl)
  have hp : List.Pairwise (· < ·) (a :: t) := h ▸ cutPoints_pairwise o rs
  rcases List.mem_cons.mp h0 with h0 | h0
  · omega
  · have := (List.pairwise_cons.mp hp).1 0 h0
    omega

theorem pairwise_lt_mem_le_getLast :
    ∀ (l : List Nat) (hne : l ≠ []), List.Pairwise (· < ·) l →
      ∀ x ∈ l, x ≤ l.getLast hne := by
  intro l
  induction l with
  | nil => intro hne; simp at hne
  | cons a t ih =>
    intro _ hp x hx
    match t with
    | [] =>
      simp at hx
      simp [hx]
    | b :: t' =>
      rw [List.getLast_cons (by simp)]
      rcases List.mem_cons.mp hx with rfl | hx
      · have hlast := List.getLast_mem (l := b :: t') (by simp)
        have := (List.pairwise_cons.mp hp).1 _ hlast
        omega
      · exact ih (by simp) (List.pairwise_cons.mp hp).2 x hx

theorem cutPoints_all_le {o : List Char} {rs : List HRange}
    (hb : ∀ r ∈ rs, r.start ≤ o.length ∧ r.stop ≤ o.length) :
    ∀ x ∈ cutPoints o rs, x ≤ o.length := by
  intro x hx
  rcases cutPoints_mem.mp hx with rfl | rfl | hx
  · omega
  · omega
  · rcases List.mem_append.mp hx with hx | hx <;>
      obtain ⟨r, hr, rfl⟩ := List.mem_map.mp hx
    · exact (hb r hr).1
    · exact (hb r hr).2

theorem cutPoints_getLast {o : List Char} {rs : List HRange}
    (hb : ∀ r ∈ rs, r.start ≤ o.length ∧ r.stop ≤ o.length)
    (hne : cutPoints o rs ≠ []) :
    (cutPoints o rs).getLast hne = o.length := by
  refine le_antisymm ?_ ?_
  · exact cutPoints_all_le hb _ (List.getLast_mem hne)
  · exact pairwise_lt_mem_le_getLast _ hne (cutPoints_pairwise o rs)
      o.length (cutPoints_mem.mpr (Or.inr (Or.inl rfl)))

theorem pySlice_append (l : List Char) {a b c : Nat} (hab : a ≤ b)
    (hbc : b ≤ c) : pySlice l a b ++ pySlice l b c = pySlice l a c := by
  unfold pySlice
  have h1 : l.drop b = (l.drop a).drop (b - a) := by
    rw [List.drop_drop]
    congr 1
    omega
  rw [h1, ← List.take_add]
  congr 1
  omega

theorem chain_le_getLast :
    ∀ (t : List Nat) (b : Nat), List.Chain (· ≤ ·) b t →
      b ≤ (b :: t).getLast (by simp) := by
  intro t
  induction t with
  | nil =>
    intro b _
    simp
  | cons c t' ih =>
    intro b hch
    rcases List.chain_cons.mp hch with ⟨hbc, h⟩
    rw [List.getLast_cons (by simp)]
    exact le_trans hbc (ih c h)

theorem join_pySlice (l : List Char) :
    ∀ (rest : List Nat) (a : Nat), List.Chain (· ≤ ·) a rest →
      ((((a :: rest).zip rest).map fun p => pySlice l p.1 p.2)).flatten
        = pySlice l a ((a :: rest).getLast (by simp)) := by
  intro rest
  induction rest with
  | nil =>
    intro a _
    simp [pySlice]
  | cons b t ih =>
    intro a hch
    rcases List.chain_cons.mp hch with ⟨hab, hbt⟩
    rw [List.getLast_cons (by simp)]
    simp only [List.zip_cons_cons, List.map_cons, List.flatten_cons]
    rw [ih b hbt]
    exact pySlice_append l hab (chain_le_getLast t b hbt)

theorem buildRanges_mem {o : List Char} {filtered : List (Nat × Issue)}
    {hr : HRange} (h : hr ∈ buildRanges o filtered) :
    ∃ p ∈ filtered, locate o p.2.excerpt = some (hr.start, hr.stop)
      ∧ hr.issue_index = p.1 ∧ hr.issue_type = p.2.type := by
  obtain ⟨p, hp, hloc⟩ := List.mem_filterMap.mp h
  rcases hl : locate o p.2.excerpt with _ | r
  · rw [hl] at hloc
    simp at hloc
  · rw [hl] at hloc
    simp only [Option.some.injEq] at hloc
    subst hloc
    exact ⟨p, hp, by rw [hl], rfl, rfl⟩

theorem sortRanges_buildRanges_bounds {o : List Char}
    {filtered : List (Nat × Issue)} :
    ∀ hr ∈ sortRanges (buildRanges o filtered),
      hr.start ≤ o.length ∧ hr.stop ≤ o.length ∧ hr.start < hr.stop := by
  intro hr hmem
  have hm : hr ∈ buildRanges o filtered :=
    (sortRanges_perm _).mem_iff.mp hmem
  obtain ⟨p, _, hloc, -, -⟩ := buildRanges_mem hm
  have := locate_bounds hloc
  exact ⟨by omega, by omega, this.1⟩

theorem zip_tail_lt {ps : List Nat} (hp : List.Pairwise (· < ·) ps) :
    ∀ q ∈ ps.zip ps.tail, q.1 < q.2 := by
  induction ps with
  | nil => simp
  | cons a rest ih =>
    match rest with
    | [] => simp
    | b :: t =>
      intro q hq
      simp only [List.tail_cons, List.zip_cons_cons, List.mem_cons] at hq
      rcases hq with rfl | hq
      · exact (List.pairwise_cons.mp hp).1 b (by simp)
      · exact ih (List.pairwise_cons.mp hp).2 q hq

theorem zip_tail_mem {ps : List Nat} :
    ∀ q ∈ ps.zip ps.tail, q.1 ∈ ps ∧ q.2 ∈ ps := by
  intro q hq
  have h1 := List.of_mem_zip hq
  exact ⟨h1.1, List.mem_of_mem_tail h1.2⟩

theorem chain'_zip_tail_map (o : List Char) (sorted : List HRange) :
    ∀ ps : List Nat, List.Chain' (fun s t => s.stop = t.start)
      ((ps.zip ps.tail).map fun p =>
        ({ start := p.1, stop := p.2, text := pySlice o p.1 p.2,
           issues := coveringAt sorted p.1 } : Segment)) := by
  intro ps
  induction ps with
  | nil => simp
  | cons a rest ih =>
    rcases rest with _ | ⟨b, t⟩
    · simp
    · simp only [List.tail_cons] at ih ⊢
      simp only [List.zip_cons_cons, List.map_cons]
      refine List.chain'_cons'.mpr ⟨?_, ih⟩
      intro s hs
      cases t with
      | nil => simp at hs
      | cons c t' =>
        simp only [List.zip_cons_cons, List.map_cons, List.head?_cons,
          Option.mem_def, Option.some.injEq] at hs
        subst hs
        rfl

theorem segmentsOf_chain' (o : List Char) (rs : List HRange) :
    List.Chain' (fun s t => s.stop = t.start) (segmentsOf o rs) := by
  unfold segmentsOf
  exact chain'_zip_tail_map o (sortRanges rs) (cutPoints o (sortRanges rs))

theorem segmentsOf_flatten (o : List Char) (rs : List HRange)
    (hb : ∀ r ∈ sortRanges rs, r.start ≤ o.length ∧ r.stop ≤ o.length) :
    ((segmentsOf o rs).map Segment.text).flatten = o := by
  unfold segmentsOf
  simp only [List.map_map]
  have hpair := cutPoints_pairwise o (sortRanges rs)
  have hne := cutPoints_ne_nil o (sortRanges rs)
  match hps : cutPoints o (sortRanges rs) with
  | [] => exact absurd hps hne
  | a :: rest =>
    rw [hps] at hpair
    have hch : List.Chain (· ≤ ·) a rest := by
      have hlt : List.Chain (· < ·) a rest := List.chain_iff_pairwise.mpr hpair
      exact List.Chain.imp (fun a b h => le_of_lt h) hlt
    have hj := join_pySlice o rest a hch
    simp only [List.tail_cons]
    rw [show Segment.text ∘ (fun p : Nat × Nat =>
        ({ start := p.1, stop := p.2, text := pySlice o p.1 p.2,
           issues := coveringAt (sortRanges rs) p.1 } : Segment))
      = fun p : Nat × Nat => pySlice o p.1 p.2 from rfl]
    rw [hj]
    have ha : a = 0 := cutPoints_head_eq_zero hps
    have hlast : ((a :: rest).getLast (by simp)) = o.length := by
      have := @cutPoints_getLast o (sortRanges rs) hb hne
      rw [List.getLast_congr _ _ hps] at this
      exact this
    subst ha
    rw [hlast]
    simp [pySlice]

theorem segmentsOf_mem_facts {o : List Char} {rs : List HRange}
    (hb : ∀ r ∈ sortRanges rs, r.start ≤ o.length ∧ r.stop ≤ o.length) :
    ∀ seg ∈ segmentsOf o rs,
      seg.start < seg.stop ∧ seg.stop ≤ o.length
        ∧ seg.text = pySlice o seg.start seg.stop
        ∧ seg.issues = coveringAt (sortRanges rs) seg.start := by
  intro seg h
  unfold segmentsOf at h
  obtain ⟨p, hp, rfl⟩ := List.mem_map.mp h
  refine ⟨zip_tail_lt (cutPoints_pairwise o (sortRanges rs)) p hp, ?_,
    rfl, rfl⟩
  have hmem := (zip_tail_mem p hp).2
  exact cutPoints_all_le hb _ hmem

/-- Original text of the concrete overlap-merge scenario (20
characters). -/
def ex20Text : List Char := "abcdefghijklmnopqrst".toList

/-- Issue whose excerpt is located exactly at `[0, 10)` of
`ex20Text`. -/
def issueA : Issue := ⟨"abcdefghij".toList, "misleading", "first issue", []⟩

/-- Issue whose excerpt is located exactly at `[5, 15)` of
`ex20Text`. -/
def issueB : Issue :=
  ⟨"fghijklmno".toList, "questionable", "second issue", []⟩

/-- C6: for every original text, issue list and visibility flags, the
emitted segments are contiguous (each segment starts where the previous
one ends), nonempty and inside the text, and the concatenation of their
texts is exactly the original text, so they partition
`[0, len(original))` with no gaps and no overlaps; moreover the two
located ranges `[0,10)` and `[5,15)` over the 20-character `ex20Text`
produce exactly the four segments `[0,5)`, `[5,10)`, `[10,15)`,
`[15,20)` with covering issue lists `[0]`, `[0,1]`, `[1]`, `[]`. -/
theorem C6_partition_completeness (original_text : List Char)
    (issues : List Issue)
    (show_misleading show_incomplete show_questionable : Bool) :
    List.Chain' (fun s t => s.stop = t.start)
      (highlightSegments original_text issues show_misleading
        show_incomplete show_questionable)
    ∧ (highlightSegments original_text issues show_misleading
        show_incomplete show_questionable).Forall
        (fun seg => seg.start < seg.stop ∧ seg.stop ≤ original_text.length)
    ∧ ((highlightSegments original_text issues show_misleading
        show_incomplete show_questionable).map Segment.text).flatten
        = original_text
    ∧ (highlightSegments ex20Text [issueA, issueB] true true true).map
        (fun s => (s.start, s.stop, s.issues.map HRange.issue_index))
      = [(0, 5, [0]), (5, 10, [0, 1]), (10, 15, [1]), (15, 20, [])] := by
  have hb := @sortRanges_buildRanges_bounds original_text
    (filterIssuesAux issues 0 show_misleading show_incomplete
      show_questionable)
  have hb' : ∀ r ∈ sortRanges (buildRanges original_text
      (filterIssuesAux issues 0 show_misleading show_incomplete
        show_questionable)),
      r.start ≤ original_text.length ∧ r.stop ≤ original_text.length :=
    fun r hr => ⟨(hb r hr).1, (hb r hr).2.1⟩
  refine ⟨segmentsOf_chain' _ _, ?_, segmentsOf_flatten _ _ hb', by decide⟩
  rw [List.forall_iff_forall_mem]
  intro seg hseg
  have := segmentsOf_mem_facts hb' seg hseg
  exact ⟨this.1, this.2.1⟩

/-- C9: an empty issue list is a valid input for any original text:
`highlight_text` raises nothing and returns the original text
unchanged, and the segment construction applied to the (empty) range
list yields exactly one plain segment spanning the whole (nonempty)
text with an empty covering list. -/
theorem C9_empty_issue_list (original_text : List Char)
    (show_misleading show_incomplete show_questionable : Bool) :
    highlight_text original_text [] show_misleading show_incomplete
      show_questionable = original_text
    ∧ (original_text ≠ [] →
        segmentsOf original_text []
          = [⟨0, original_text.length, original_text, []⟩]) := by
  constructor
  · simp [highlight_text]
  · intro hne
    have hlen : 0 < original_text.length := List.length_pos.mpr hne
    have hcp : cutPoints original_text (sortRanges [])
        = [0, original_text.length] := by
      rw [show sortRanges [] = [] from rfl]
      unfold cutPoints
      have hd : ((0 :: original_text.length ::
          (([] : List HRange).map HRange.start
            ++ ([] : List HRange).map HRange.stop)).dedup)
          = [0, original_text.length] := by
        simp only [List.map_nil, List.append_nil]
        rw [List.dedup_cons_of_not_mem (by simp; omega)]
        simp
      rw [hd]
      simp [List.insertionSort, List.orderedInsert]
    unfold segmentsOf
    simp only [hcp]
    simp only [List.tail_cons, List.zip_cons_cons, List.zip_nil_right,
      List.map_cons, List.map_nil]
    refine congrArg (· :: []) ?_
    have htext : pySlice original_text 0 original_text.length
        = original_text := by
      simp [pySlice]
    have hcov : coveringAt (sortRanges []) 0 = [] := rfl
    rw [htext, hcov]

/-- Witness for C9 at the concrete text `"ab"`. -/
theorem C9_empty_issue_list_witness :
    highlight_text "ab".toList [] true true true = "ab".toList
    ∧ segmentsOf "ab".toList []
        = [⟨0, "ab".toList.length, "ab".toList, []⟩] :=
  ⟨(C9_empty_issue_list "ab".toList true true true).1,
    (C9_empty_issue_list "ab".toList true true true).2 (by decide)⟩

/-- C7: for every highlighted segment the rendering metadata is
computed as the spec describes: the background color comes from the
primary (first-listed) issue's kind; with a single covering issue the
border is transparent and the badge is the primary issue's 1-based
index; with several covering issues the border color is derived from
the second issue's kind alone (whatever the remaining issues are) and
the badge shows the count of covering issues. -/
theorem C7_render_metadata (st sp : Nat) (text : List Char)
    (primary second : HRange) (restIssues : List HRange) :
    renderSegment ⟨st, sp, text, [primary]⟩
      = some ⟨(colors primary.issue_type).getD "#fff4cc",
          "2px solid transparent", toString (primary.issue_index + 1),
          "single"⟩
    ∧ renderSegment ⟨st, sp, text, primary :: second :: restIssues⟩
      = some ⟨(colors primary.issue_type).getD "#fff4cc",
          "2px solid " ++ (border_colors second.issue_type).getD "#333",
          toString (restIssues.length + 2), "multiple"⟩ := by
  constructor
  · simp [renderSegment]
  · simp only [renderSegment, List.map_cons, List.length_cons]
    have h1 : 1 < restIssues.length + 1 + 1 := by omega
    have h2 : ¬ (restIssues.length + 1 + 1 = 1) := by omega
    simp [h1, h2]

theorem filterIssuesAux_mem {issues : List Issue} {n : Nat}
    {f1 f2 f3 : Bool} :
    ∀ p ∈ filterIssuesAux issues n f1 f2 f3,
      n ≤ p.1 ∧ issues.get? (p.1 - n) = some p.2 := by
  induction issues generalizing n with
  | nil => simp [filterIssuesAux]
  | cons issue rest ih =>
    intro p hp
    rw [filterIssuesAux] at hp
    split at hp
    · have := ih p hp
      refine ⟨by omega, ?_⟩
      have hs : p.1 - n = (p.1 - (n + 1)) + 1 := by omega
      rw [hs]
      simpa using this.2
    · rcases List.mem_cons.mp hp with rfl | hp
      · simp
      · have := ih p hp
        refine ⟨by omega, ?_⟩
        have hs : p.1 - n = (p.1 - (n + 1)) + 1 := by omega
        rw [hs]
        simpa using this.2

theorem filterIssuesAux_pairwise (issues : List Issue) (n : Nat)
    (f1 f2 f3 : Bool) :
    List.Pairwise (fun p q => p.1 < q.1)
      (filterIssuesAux issues n f1 f2 f3) := by
  induction issues generalizing n with
  | nil => simp [filterIssuesAux]
  | cons issue rest ih =>
    rw [filterIssuesAux]
    split
    · exact ih (n + 1)
    · refine List.Pairwise.cons ?_ (ih (n + 1))
      intro q hq
      have := (filterIssuesAux_mem q hq).1
      simp only
      omega

theorem buildRanges_pairwise_idx (o : List Char)
    {filtered : List (Nat × Issue)}
    (h : List.Pairwise (fun p q => p.1 < q.1) filtered) :
    List.Pairwise (fun a b => a.issue_index < b.issue_index)
      (buildRanges o filtered) := by
  unfold buildRanges
  rw [List.pairwise_filterMap]
  refine h.imp ?_
  intro p q hpq b hb b' hb'
  rcases hl : locate o p.2.excerpt with _ | r <;> rw [hl] at hb
  · simp at hb
  · rcases hl' : locate o q.2.excerpt with _ | r' <;> rw [hl'] at hb'
    · simp at hb'
    · simp only [Option.mem_def, Option.some.injEq] at hb hb'
      subst hb
      subst hb'
      simpa using hpq

theorem pair_sublist_of_mem_pairwise {l : List HRange}
    (hp : List.Pairwise (fun a b => a.issue_index < b.issue_index) l)
    {a b : HRange} (ha : a ∈ l) (hb : b ∈ l)
    (hlt : a.issue_index < b.issue_index) : [a, b].Sublist l := by
  induction l with
  | nil => simp at ha
  | cons c t ih =>
    rcases List.mem_cons.mp ha with rfl | ha'
    · rcases List.mem_cons.mp hb with rfl | hb'
      · omega
      · exact List.Sublist.cons₂ _ (List.singleton_sublist.mpr hb')
    · rcases List.mem_cons.mp hb with rfl | hb'
      · have := (List.pairwise_cons.mp hp).1 a ha'
        omega
      · exact List.Sublist.cons c (ih (List.pairwise_cons.mp hp).2 ha' hb')

/-- Stability of the range sort: when the input ranges carry strictly
increasing issue indices (as produced by the collection loop), the
sorted list is ordered by nondecreasing `start`, and ranges with equal
`start` keep their ascending `issue_index` order. -/
theorem sortRanges_stable {l : List HRange}
    (hidx : List.Pairwise (fun a b => a.issue_index < b.issue_index) l) :
    List.Pairwise
      (fun a b => a.start ≤ b.start
        ∧ (a.start = b.start → a.issue_index < b.issue_index))
      (sortRanges l) := by
  have hsorted := sortRanges_sorted l
  have hidx_ne : List.Pairwise
      (fun a b : HRange => a.issue_index ≠ b.issue_index) (sortRanges l) := by
    have h1 : List.Pairwise
        (fun a b : HRange => a.issue_index ≠ b.issue_index) l :=
      hidx.imp fun h => Nat.ne_of_lt h
    exact ((sortRanges_perm l).pairwise_iff
      (fun h => Ne.symm h)).mpr h1
  have hnod : (sortRanges l).Nodup :=
    hidx_ne.imp fun h => fun he => h (congrArg HRange.issue_index he)
  rw [List.pairwise_iff_get]
  intro i j hij
  refine ⟨List.pairwise_iff_get.mp hsorted i j hij, ?_⟩
  intro heq
  by_contra hnot
  have hne := List.pairwise_iff_get.mp hidx_ne i j hij
  have hba : ((sortRanges l).get j).issue_index
      < ((sortRanges l).get i).issue_index := by omega
  have hmem_a : (sortRanges l).get i ∈ l :=
    (sortRanges_perm l).mem_iff.mp (List.get_mem _ _ _)
  have hmem_b : (sortRanges l).get j ∈ l :=
    (sortRanges_perm l).mem_iff.mp (List.get_mem _ _ _)
  have hsub : [(sortRanges l).get j, (sortRanges l).get i].Sublist l :=
    pair_sublist_of_mem_pairwise hidx hmem_b hmem_a hba
  have hsub' : [(sortRanges l).get j, (sortRanges l).get i].Sublist
      (sortRanges l) :=
    List.pair_sublist_insertionSort (le_of_eq heq.symm) hsub
  obtain ⟨f, hf⟩ :=
    List.sublist_iff_exists_fin_orderEmbedding_get_eq.mp hsub'
  have h0 : (sortRanges l).get (f ⟨0, by simp⟩) = (sortRanges l).get j :=
    (hf ⟨0, by simp⟩).symm
  have h1 : (sortRanges l).get (f ⟨1, by simp⟩) = (sortRanges l).get i :=
    (hf ⟨1, by simp⟩).symm
  have hf0 : f ⟨0, by simp⟩ = j := (List.Nodup.get_inj_iff hnod).mp h0
  have hf1 : f ⟨1, by simp⟩ = i := (List.Nodup.get_inj_iff hnod).mp h1
  have hlt01 : f ⟨0, by simp⟩ < f ⟨1, by simp⟩ :=
    f.strictMono (by simp)
  rw [hf0, hf1] at hlt01
  exact absurd hij (by omega)

/-- Counterexample to C1: with issue 0 located at `[5,15)` and issue 1
located at `[0,10)` of the 20-character `ex20Text`, the covering lists
of the emitted segments are `[1]`, `[1, 0]`, `[0]`, `[]` — the overlap
segment's list is ordered `[1, 0]`, i.e. by range start, not by
ascending `issue_index`, and its primary issue is issue 1, not the
covering issue with the lowest `issue_index`. -/
theorem C1_counterexample :
    ((highlightSegments ex20Text [issueB, issueA] true true true).map
        fun s => s.issues.map HRange.issue_index)
      = [[1], [1, 0], [0], []]
    ∧ ¬ ((highlightSegments ex20Text [issueB, issueA] true true true).Forall
        fun seg => List.Pairwise
          (fun a b => a.issue_index ≤ b.issue_index) seg.issues) := by
  constructor
  · decide
  · decide

/-- C1 (amended): in every emitted segment the covering-issue list is
ordered by nondecreasing range start position, and covering issues with
equal start positions keep their ascending `issue_index` order (the
sort is stable); the primary issue at position 0 is therefore the
covering issue whose range starts earliest, with the lowest
`issue_index` among those tied for the earliest start — not the
covering issue with the lowest `issue_index` overall. -/
theorem C1_amended_covering_order (original_text : List Char)
    (issues : List Issue)
    (show_misleading show_incomplete show_questionable : Bool) :
    (highlightSegments original_text issues show_misleading
        show_incomplete show_questionable).Forall
      fun seg => List.Pairwise
        (fun a b => a.start ≤ b.start
          ∧ (a.start = b.start → a.issue_index < b.issue_index))
        seg.issues := by
  rw [List.forall_iff_forall_mem]
  intro seg hseg
  unfold highlightSegments segmentsOf at hseg
  obtain ⟨p, hp, rfl⟩ := List.mem_map.mp hseg
  have hstable := sortRanges_stable
    (buildRanges_pairwise_idx original_text
      (filterIssuesAux_pairwise issues 0 show_misleading show_incomplete
        show_questionable))
  exact List.Pairwise.sublist (List.filter_sublist _) hstable

/-- C8: an issue whose excerpt is empty after trimming, or whose
excerpt neither strategy can locate, contributes zero ranges and
appears in no segment's covering list, while remaining a member of the
caller's unfiltered issue list; `highlight_text` is a total function on
such input, so no exception is raised. -/
theorem C8_unlocatable_issue (original_text : List Char)
    (issues : List Issue) (j : Nat) (iss : Issue)
    (show_misleading show_incomplete show_questionable : Bool)
    (hj : issues.get? j = some iss)
    (hun : pyStrip iss.excerpt = []
      ∨ locate original_text iss.excerpt = none) :
    iss ∈ issues
    ∧ (buildRanges original_text
        (filterIssuesAux issues 0 show_misleading show_incomplete
          show_questionable)).Forall (fun hr => hr.issue_index ≠ j)
    ∧ (highlightSegments original_text issues show_misleading
        show_incomplete show_questionable).Forall
        (fun seg => seg.issues.Forall fun hr => hr.issue_index ≠ j) := by
  have hloc : locate original_text iss.excerpt = none := by
    rcases hun with h | h
    · exact locate_of_strip_empty h
    · exact h
  have hmem : iss ∈ issues := List.get?_mem hj
  have hranges : ∀ hr ∈ buildRanges original_text
      (filterIssuesAux issues 0 show_misleading show_incomplete
        show_questionable), hr.issue_index ≠ j := by
    intro hr hhr heq
    obtain ⟨p, hp, hl, hidx, -⟩ := buildRanges_mem hhr
    have hpmem := filterIssuesAux_mem p hp
    have hpj : issues.get? p.1 = some p.2 := by
      simpa using hpmem.2
    have hp1 : p.1 = j := by omega
    rw [hp1, hj] at hpj
    have : p.2 = iss := by
      simpa using hpj.symm
    rw [this] at hl
    rw [hloc] at hl
    exact absurd hl (by simp)
  refine ⟨hmem, ?_, ?_⟩
  · rw [List.forall_iff_forall_mem]
    exact hranges
  · rw [List.forall_iff_forall_mem]
    intro seg hseg
    rw [List.forall_iff_forall_mem]
    intro hr hhr
    unfold highlightSegments segmentsOf at hseg
    obtain ⟨p, hp, rfl⟩ := List.mem_map.mp hseg
    have hmem' : hr ∈ sortRanges (buildRanges original_text
        (filterIssuesAux issues 0 show_misleading show_incomplete
          show_questionable)) := List.mem_of_mem_filter hhr
    exact hranges hr ((sortRanges_perm _).mem_iff.mp hmem')

/-- Issue with an excerpt that occurs nowhere in the text it is checked
against. -/
def issueZ : Issue :=
  ⟨"not present anywhere".toList, "incomplete", "missing context", []⟩

/-- Witness for C8: the unlocatable `issueZ` against the text `"abc"`
produces no range and covers no segment. -/
theorem C8_unlocatable_issue_witness :
    issueZ ∈ [issueZ]
    ∧ (buildRanges "abc".toList
        (filterIssuesAux [issueZ] 0 true true true)).Forall
        (fun hr => hr.issue_index ≠ 0)
    ∧ (highlightSegments "abc".toList [issueZ] true true true).Forall
        (fun seg => seg.issues.Forall fun hr => hr.issue_index ≠ 0) :=
  C8_unlocatable_issue "abc".toList [issueZ] 0 issueZ true true true
    (by decide) (Or.inr (by decide))
